import Mathlib

/-!
Verification of the whisper-stream chunk-windowing and boundary-reconciliation
engine (`whisperstream/stream.py`, `trim.py`, `languages.py`) against its
natural-language specification.  Times are embedded as rationals, character
operations act on the underlying character lists, recognition results and the
transcription client become explicit data / oracle functions, and the
streaming generator becomes a fuel-indexed loop producing the list of yielded
results together with the list of I/O events it performs.
-/

namespace WhisperStream

/-- Errors of the package.  Modelled from the spec: the module
`whisperstream/error.py` is not part of the provided sources; the spec's §7
taxonomy names `UnsupportedLanguage` (raised in `stream.py` and
`languages.py`) and `InvalidConfiguration` (the `ValueError` raised for
force-punctuation together with an explicit prompt). -/
inductive WhisperError where
  | unsupportedLanguage
  | invalidConfiguration
  deriving Repr, DecidableEq

/-- One segment of a recognition result: `seek`, `start`, `end` (called `stop`
here because `end` is a Lean keyword) and `text`, as in the verbose-json
response consumed by `stream.py`. -/
structure Segment where
  seek : ℚ
  start : ℚ
  stop : ℚ
  text : String
  deriving Repr, DecidableEq

/-- A recognition result returned by the transcription client: detected/used
language display name, aggregate text, and the ordered segment list. -/
structure RecognitionResult where
  language : String
  text : String
  segments : List Segment
  deriving Repr, DecidableEq

/-- `_get_end` from `stream.py`: nominal end `start + chunk_size`, extended to
the total duration when the remaining audio after the nominal end is shorter
than the chunk size. -/
def getEnd (chunk_size_fn : ℕ → ℚ) (audio_duration : ℚ) (start : ℚ)
    (chunk_index : ℕ) : ℚ :=
  let chunk_size := chunk_size_fn chunk_index
  let e := start + chunk_size
  if audio_duration - e < chunk_size then audio_duration else e

/-- `default_chunk_size_fn` from `stream.py`. -/
def default_chunk_size_fn (index : ℕ) : ℚ :=
  let factor : ℕ := if index < 2 then 1 else index
  30 * factor

/-- `is_punctuation_present` from `stream.py`: the text has some uppercase
character and some character from `"!(),.:;?"`.  Iteration over the string is
embedded as iteration over its character list. -/
def is_punctuation_present (text : String) : Bool :=
  if !(text.data.any fun c => c.isUpper) then false
  else if !(text.data.any fun c => "!(),.:;?".data.any fun p => p == c) then
    false
  else true

/-- The `end` time of the last segment of a list, `segments[-1]["end"]` in the
source; the empty case (unreachable at every call site, where the list is
known nonempty) defaults to `0`. -/
def lastStop (segments : List Segment) : ℚ :=
  ((segments.getLast?).map Segment.stop).getD 0

/-- The trailing-segment removal loop of `atranscribe_streaming`
(`for _i in range(max_segments_to_skip): ...`): with budget `b`, repeatedly
drop the last segment and stop as soon as the new last segment's end is
strictly below the window end `e`. -/
def trimLoop (e : ℚ) : ℕ → List Segment → List Segment
  | 0, segments => segments
  | b + 1, segments =>
    let segments' := segments.dropLast
    if lastStop segments' < e then segments' else trimLoop e b segments'

/-- The boundary-trim decision of the core loop, acting on an already rebased
result `r` for a window ending at `e`: with zero or one segment the result is
untouched and the cursor advances to `e`; with two or more segments the
removal loop runs with budget `max 1 (segmentCount - 1)`, the cursor becomes
`min lastRemainingEnd e`, and the aggregate text is recomputed as the
concatenation of retained texts.  Returns the updated result and the new
cursor. -/
def trimResult (r : RecognitionResult) (e : ℚ) : RecognitionResult × ℚ :=
  if r.segments.length ≤ 1 then (r, e)
  else
    let segments := trimLoop e (max 1 (r.segments.length - 1)) r.segments
    ({ r with segments := segments,
              text := String.join (segments.map Segment.text) },
     min (lastStop segments) e)

/-- Rebasing of a result onto the whole-file timeline: every segment's
`seek`, `start` and `end` are shifted by the window start. -/
def rebaseResult (r : RecognitionResult) (start : ℚ) : RecognitionResult :=
  { r with segments := r.segments.map fun s =>
      { s with seek := s.seek + start, start := s.start + start,
               stop := s.stop + start } }

/-- One yield of the core loop together with the continuation prompt before
and after the iteration and whether it was the terminal chunk. -/
structure LoopYield where
  result : RecognitionResult
  promptBefore : String
  promptAfter : String
  terminal : Bool
  deriving Repr, DecidableEq

/-- An observable I/O action of the engine: probing the audio duration,
slicing a `[start, end)` window, or a network transcription call. -/
inductive IOEvent where
  | probeDuration
  | sliceAudio (start e : ℚ)
  | transcribeCall (start e : ℚ)
  deriving Repr, DecidableEq

/-- The `while True` core loop of `atranscribe_streaming`, from the point
where the current result `r` for window `[start, e)` is in hand: rebase, test
termination, trim, update the prompt, yield, compute the next window and
re-request.  `tr start e prompt` is the transcription-client oracle; `fuel`
bounds the number of observed iterations.  Returns the yields and the
slice/transcribe events performed. -/
def runLoop (tr : ℚ → ℚ → Option String → RecognitionResult)
    (csf : ℕ → ℚ) (dur : ℚ) :
    ℕ → RecognitionResult → ℚ → ℚ → ℕ → String →
    List LoopYield × List IOEvent
  | 0, _, _, _, _, _ => ([], [])
  | fuel + 1, r, start, e, i, prompt =>
    let r' := rebaseResult r start
    if dur ≤ e then ([⟨r', prompt, prompt, true⟩], [])
    else
      let t := trimResult r' e
      let p' := prompt ++ t.1.text
      let e' := getEnd csf dur t.2 (i + 1)
      let rest := runLoop tr csf dur fuel (tr t.2 e' (some p')) t.2 e' (i + 1) p'
      (⟨t.1, prompt, p', false⟩ :: rest.1,
       IOEvent.sliceAudio t.2 e' :: IOEvent.transcribeCall t.2 e' :: rest.2)

/-- The flattened `[start, end]` time values of a result's segments, in
order. -/
def resultTimes (r : RecognitionResult) : List ℚ :=
  r.segments.flatMap fun s => [s.start, s.stop]

/-- All time values of the results yielded by a loop trace, in emission
order. -/
def emittedTimes (trace : List LoopYield) : List ℚ :=
  trace.flatMap fun y => resultTimes y.result

/-- The assumption on a recognition result for a window of duration `d`:
segment start/end values are slice-relative, non-negative, non-decreasing
across the list, and at most `d`. -/
def ValidResult (r : RecognitionResult) (d : ℚ) : Prop :=
  List.Chain' (· ≤ ·) (resultTimes r) ∧ ∀ t ∈ resultTimes r, 0 ≤ t ∧ t ≤ d

/-- The prompt truncation performed by `default_atranscribe_fn`:
`kwargs["prompt"][-1000:]`, the last 1000 characters. -/
def defaultTransportPrompt (prompt : String) : String := prompt.takeRight 1000

/-- The language table `_WHISPER_LANGUAGES` from `languages.py`, as
(ISO 639-1 code, display name) pairs. -/
def WHISPER_LANGUAGES : List (String × String) := [
  ("af", "Afrikaans"), ("ar", "Arabic"), ("hy", "Armenian"),
  ("az", "Azerbaijani"), ("be", "Belarusian"), ("bs", "Bosnian"),
  ("bg", "Bulgarian"), ("ca", "Catalan"), ("zh", "Chinese"),
  ("hr", "Croatian"), ("cs", "Czech"), ("da", "Danish"),
  ("nl", "Dutch"), ("en", "English"), ("et", "Estonian"),
  ("fi", "Finnish"), ("fr", "French"), ("gl", "Galician"),
  ("de", "German"), ("he", "Hebrew"), ("hi", "Hindi"),
  ("hu", "Hungarian"), ("is", "Icelandic"), ("id", "Indonesian"),
  ("it", "Italian"), ("ja", "Japanese"), ("kn", "Kannada"),
  ("kk", "Kazakh"), ("ko", "Korean"), ("lv", "Latvian"),
  ("lt", "Lithuanian"), ("mk", "Macedonian"), ("mr", "Marathi"),
  ("mi", "Maori"), ("no", "Norwegian"), ("fa", "Persian"),
  ("pl", "Polish"), ("pt", "Portuguese"), ("ro", "Romanian"),
  ("ru", "Russian"), ("sr", "Serbian"), ("sk", "Slovak"),
  ("sl", "Slovenian"), ("es", "Spanish"), ("sv", "Swedish"),
  ("tl", "Tagalog"), ("ta", "Tamil"), ("th", "Thai"),
  ("tr", "Turkish"), ("uk", "Ukrainian"), ("ur", "Urdu"),
  ("vi", "Vietnamese"), ("el", "Greek"), ("ms", "Malay"),
  ("ne", "Nepali"), ("sw", "Swahili"), ("cy", "Welsh")]

/-- `SUPPORTED_LANGUAGES` from `languages.py`, as the list of language
codes (a `Lang` object is identified with its ISO 639-1 code `pt1`). -/
def SUPPORTED_LANGUAGES : List String := WHISPER_LANGUAGES.map Prod.fst

/-- The `_NAME_TO_LANG` dictionary lookup from `languages.py` (display names
are unique in the table, so a first-match search embeds the dict). -/
def NAME_TO_LANG (name : String) : Option String :=
  (WHISPER_LANGUAGES.find? fun p => p.2 == name).map Prod.fst

/-- Python's `str.capitalize`: first character uppercased, the remaining
characters lowercased. -/
def pyCapitalize (s : String) : String :=
  match s.data with
  | [] => ""
  | c :: cs => String.mk (c.toUpper :: cs.map Char.toLower)

/-- `get_lang_from_name` from `languages.py`: empty names are rejected, the
reported name is capitalized and looked up in the table, and a missing entry
is an `UnsupportedLanguageError`. -/
def get_lang_from_name (name : String) : Except WhisperError String :=
  if name = "" then .error .unsupportedLanguage
  else
    match NAME_TO_LANG (pyCapitalize name) with
    | some lang => .ok lang
    | none => .error .unsupportedLanguage

/-- Python's `str.lstrip`: drop leading whitespace characters. -/
def pyLstrip (s : String) : String :=
  String.mk (s.data.dropWhile fun c => c.isWhitespace)

/-- The local `_capitalize` of `atranscribe_streaming`: strip leading
whitespace, then uppercase the first character, keeping the rest. -/
def pyCapitalizeText (text : String) : String :=
  match (pyLstrip text).data with
  | [] => ""
  | c :: cs => String.mk (c.toUpper :: cs)

/-- The capitalization applied when punctuation is already present: the
result text and the first segment's text get their first character
capitalized. -/
def capitalizeResult (r : RecognitionResult) : RecognitionResult :=
  match r.segments with
  | [] => { r with text := pyCapitalizeText r.text }
  | s :: ss => { r with text := pyCapitalizeText r.text,
                        segments := { s with text := pyCapitalizeText s.text } :: ss }

/-- Language resolution after the first request (`stream.py` lines 229-231):
a caller-pinned language is kept, otherwise the service-reported name is
resolved through `get_lang_from_name`. -/
def resolveLang (givenLang : Option String) (reported : String) :
    Except WhisperError String :=
  match givenLang with
  | some l => .ok l
  | none => get_lang_from_name reported

/-- Outcome of the first-chunk phase: the (possibly re-issued, possibly
capitalized) first result, how many transcription calls were made for the
first window, the value of the continuation prompt after the phase, and the
resolved language code. -/
structure FirstChunkTrace where
  result : RecognitionResult
  calls : ℕ
  promptAfterFirst : Option String
  lang : String
  deriving Repr, DecidableEq

/-- The first-chunk phase of `atranscribe_streaming` (lines 224-247): prime
the prompt when forcing punctuation with a known language, issue the first
request, resolve the language, then either re-issue once with the priming
phrase plus a trailing space (when punctuation is absent) or capitalize.
`pp` is the priming-phrase table `get_punctuation_prompt_for_lang` and `tr`
the transcription call for the fixed first window as a function of the
prompt. -/
def runFirstChunk (force : Bool) (givenLang : Option String)
    (callerPrompt : Option String) (pp : String → String)
    (tr : Option String → RecognitionResult) :
    Except WhisperError FirstChunkTrace :=
  let prompt0 : Option String :=
    if force then
      match givenLang with
      | some l => some (pp l)
      | none => callerPrompt
    else callerPrompt
  let r := tr prompt0
  match resolveLang givenLang r.language with
  | .error err => .error err
  | .ok lang =>
    if force then
      if !(is_punctuation_present r.text) then
        let p := pp lang ++ " "
        .ok ⟨tr (some p), 2, some p, lang⟩
      else
        .ok ⟨capitalizeResult r, 1, prompt0, lang⟩
    else .ok ⟨r, 1, prompt0, lang⟩

/-- The media-slicing and transcription events performed by the first-chunk
phase: one slice plus one network call per transcription request for the
window `[0, e0)`. -/
def firstChunkEvents (calls : ℕ) (e0 : ℚ) : List IOEvent :=
  (List.range calls).flatMap fun _ =>
    [IOEvent.sliceAudio 0 e0, IOEvent.transcribeCall 0 e0]

/-- `atranscribe_streaming` end to end: validation (caller language in the
supported set; force-punctuation excludes an explicit prompt), duration
probing, the first-chunk phase, and the core loop.  Returns the I/O events
performed, in order, and either the validation/language error or the list of
yields. -/
def atranscribe_streaming_model (language : Option String) (force : Bool)
    (callerPrompt : Option String) (csf : ℕ → ℚ) (dur : ℚ)
    (pp : String → String) (tr : ℚ → ℚ → Option String → RecognitionResult)
    (fuel : ℕ) : List IOEvent × Except WhisperError (List LoopYield) :=
  let langBad : Bool :=
    match language with
    | some l => !(SUPPORTED_LANGUAGES.contains l)
    | none => false
  if langBad then ([], .error .unsupportedLanguage)
  else if force && callerPrompt.isSome then ([], .error .invalidConfiguration)
  else
    let e0 := getEnd csf dur 0 0
    match runFirstChunk force language callerPrompt pp (fun p => tr 0 e0 p) with
    | .error err =>
      (IOEvent.probeDuration :: firstChunkEvents 1 e0, .error err)
    | .ok t =>
      let loop := runLoop tr csf dur fuel t.result 0 e0 0
        ((t.promptAfterFirst).getD "")
      (IOEvent.probeDuration :: (firstChunkEvents t.calls e0 ++ loop.2),
       .ok loop.1)

/-- `atranscribe_streaming_simple` over the list of results yielded by the
core generator: pull the first element (`none` when the generator is empty),
strip leading whitespace from its first segment's text, resolve the reported
language, and expose the remaining segments in order. -/
def atranscribe_streaming_simple_model (results : List RecognitionResult) :
    Option (Except WhisperError (String × List Segment)) :=
  match results with
  | [] => none
  | r :: rest =>
    let segs0 : List Segment :=
      match r.segments with
      | [] => []
      | s :: ss => { s with text := pyLstrip s.text } :: ss
    match get_lang_from_name r.language with
    | .error err => some (.error err)
    | .ok lang =>
      some (.ok (lang, segs0 ++ rest.flatMap RecognitionResult.segments))

/-- One ffprobe stream entry, keeping the fields `trim.py` reads. -/
structure ProbeStream where
  codec_type : String
  duration : Option ℚ
  deriving Repr, DecidableEq

/-- The ffprobe metadata `trim.py` reads: the stream entries and the
(possibly absent or unparseable) `format.duration` value. -/
structure ProbeMetadata where
  streams : List ProbeStream
  formatDuration : Option ℚ
  deriving Repr, DecidableEq

/-- Failure modes of duration probing: the generic `RuntimeError` raises of
`trim.py`, and `NoAudioStreamsError`.  Modelled from the spec: `error.py` is
not in the provided sources; `NoAudioStreamsError` is taken to be an ordinary
`Exception` subclass, so the bare `except Exception` fallback in
`get_audio_duration` catches it. -/
inductive DurationError where
  | runtimeError
  | noAudioStreams
  deriving Repr, DecidableEq

/-- `get_audio_duration_ffprobe` from `trim.py`, over the probe outcome:
probe failure is a `RuntimeError`; no audio stream is `NoAudioStreamsError`;
otherwise the maximal per-stream duration, falling back to the format
duration. -/
def get_audio_duration_ffprobe (probe : Except String ProbeMetadata) :
    Except DurationError ℚ :=
  match probe with
  | .error _ => .error .runtimeError
  | .ok metadata =>
    let audio_streams := metadata.streams.filter fun s => s.codec_type == "audio"
    if audio_streams.length = 0 then .error .noAudioStreams
    else
      match audio_streams.filterMap ProbeStream.duration with
      | [] =>
        match metadata.formatDuration with
        | some d => .ok d
        | none => .error .runtimeError
      | d :: ds => .ok (ds.foldl max d)

/-- `get_audio_duration_decode` from `trim.py`, over the parsed
`time=HH:MM:SS.ss` matches of the ffmpeg stderr: the last match converted to
seconds, or a `RuntimeError` when there is none. -/
def get_audio_duration_decode (timeMatches : List (ℕ × ℕ × ℚ)) :
    Except DurationError ℚ :=
  match timeMatches.getLast? with
  | some (h, m, s) => .ok ((h : ℚ) * 3600 + (m : ℚ) * 60 + s)
  | none => .error .runtimeError

/-- `get_audio_duration` from `trim.py`: try ffprobe and on any exception
fall back to the decode-based estimate. -/
def get_audio_duration (probe : Except String ProbeMetadata)
    (timeMatches : List (ℕ × ℕ × ℚ)) : Except DurationError ℚ :=
  match get_audio_duration_ffprobe probe with
  | .ok d => .ok d
  | .error _ => get_audio_duration_decode timeMatches

/-- Outcome of running one ffmpeg encoding strategy in
`trim_audio_and_convert`: success with the output bytes and whether stderr
contained `nothing was encoded`, or an `ffmpeg.Error` carrying the partial
stdout bytes.  Bytes are modelled as lists of naturals. -/
inductive FfmpegRun where
  | success (out : List ℕ) (nothingEncoded : Bool)
  | failure (out : List ℕ)
  deriving Repr, DecidableEq

/-- Whether a strategy outcome is an `ffmpeg.Error`. -/
def FfmpegRun.isFailure : FfmpegRun → Bool
  | .failure _ => true
  | .success _ _ => false

/-- The partial stdout bytes of a strategy outcome. -/
def FfmpegRun.out : FfmpegRun → List ℕ
  | .failure o => o
  | .success o _ => o

/-- Failure modes of `trim_audio_and_convert`: a failed `assert`, the
`AudioTrimError` raised for `nothing was encoded` (uncaught, since only
`ffmpeg.Error` is caught), and the final `RuntimeError`. -/
inductive TrimFailure where
  | assertionError
  | audioTrimError
  | runtimeError
  deriving Repr, DecidableEq

/-- The strategy loop of `trim_audio_and_convert`: return the first
successful encode (unless ffmpeg reported that nothing was encoded), keep
the longest partial output across failures, and after all strategies fail
return the best partial bytes if nonempty, else raise. -/
def trimAttempts : List FfmpegRun → List ℕ → Except TrimFailure (List ℕ)
  | [], best => if 0 < best.length then .ok best else .error .runtimeError
  | FfmpegRun.success o nothingEncoded :: _, _ =>
    if nothingEncoded then .error .audioTrimError else .ok o
  | FfmpegRun.failure o :: rest, best =>
    trimAttempts rest (if best.length < o.length then o else best)

/-- The accumulated best partial output over a list of strategy outcomes
(failures contribute their stdout when strictly longer). -/
def bestPartial (runs : List FfmpegRun) (best : List ℕ) : List ℕ :=
  runs.foldl
    (fun acc r =>
      match r with
      | FfmpegRun.failure o => if acc.length < o.length then o else acc
      | FfmpegRun.success _ _ => acc)
    best

/-- `trim_audio_and_convert` from `trim.py`: assert `start ≥ 0`, and when an
end time is given assert that the duration is positive, then run the
strategy loop.  `runs` is the oracle for the ffmpeg invocations. -/
def trim_audio_and_convert (start : ℚ) (stop : Option ℚ)
    (runs : List FfmpegRun) : Except TrimFailure (List ℕ) :=
  if ¬ 0 ≤ start then .error .assertionError
  else
    match stop with
    | some e =>
      if ¬ 0 < e - start then .error .assertionError
      else trimAttempts runs []
    | none => trimAttempts runs []

/-- The full multi-segment boundary-trim specification for a (rebased) result
`r` with at least two segments against window end `e`: some `k` trailing
segments are removed, `1 ≤ k ≤ segmentCount - 1`, removal is minimal (every
earlier stop point still had last end `≥ e`), removal stops early only when
the new last end is strictly below `e` (otherwise the budget was exhausted),
the cursor becomes `min lastRemainingEnd e` (hence exactly `e` when the
budget was exhausted), and the aggregate text is the concatenation of the
retained texts. -/
def TrimSpec (r : RecognitionResult) (e : ℚ) : Prop :=
  ∃ k, 1 ≤ k ∧ k ≤ r.segments.length - 1 ∧
    (trimResult r e).1.segments = r.segments.take (r.segments.length - k) ∧
    (∀ m, 1 ≤ m → m < k →
      e ≤ lastStop (r.segments.take (r.segments.length - m))) ∧
    (lastStop ((trimResult r e).1.segments) < e ∨
      k = r.segments.length - 1) ∧
    (trimResult r e).2 = min (lastStop ((trimResult r e).1.segments)) e ∧
    (e ≤ lastStop ((trimResult r e).1.segments) → (trimResult r e).2 = e) ∧
    (trimResult r e).1.text =
      String.join (((trimResult r e).1.segments).map Segment.text)

/-- Taking at most `length - 1` elements commutes with `dropLast`. -/
theorem dropLast_take_eq (segs : List Segment) (j : ℕ)
    (hj : j ≤ segs.length - 1) : segs.dropLast.take j = segs.take j := by
  rw [List.dropLast_eq_take, List.take_take]
  congr 1
  omega

/-- Characterization of the removal loop: starting from `b + 1 ≥ 2` segments
with budget `b ≥ 1`, some `1 ≤ k ≤ b` trailing segments are removed, removal
is minimal, and it either stopped because the new last end fell below `e` or
the budget was exhausted. -/
theorem trimLoop_take (e : ℚ) :
    ∀ (b : ℕ) (segs : List Segment), 1 ≤ b → segs.length = b + 1 →
    ∃ k, 1 ≤ k ∧ k ≤ b ∧
      trimLoop e b segs = segs.take (segs.length - k) ∧
      (∀ m, 1 ≤ m → m < k → e ≤ lastStop (segs.take (segs.length - m))) ∧
      (lastStop (segs.take (segs.length - k)) < e ∨ k = b) := by
  intro b
  induction b with
  | zero => intro segs hb _; exact absurd hb (by decide)
  | succ b ih =>
    intro segs _ hlen
    have hdl : segs.dropLast = segs.take (segs.length - 1) :=
      List.dropLast_eq_take segs
    by_cases hb : lastStop segs.dropLast < e
    · refine ⟨1, le_refl 1, by omega, ?_, ?_, ?_⟩
      · rw [trimLoop]
        simp only [hb, if_true]
        exact hdl
      · intro m h1 hm; omega
      · left; rw [← hdl]; exact hb
    · rcases Nat.eq_zero_or_pos b with hb0 | hbpos
      · subst hb0
        refine ⟨1, le_refl 1, le_refl 1, ?_, ?_, Or.inr rfl⟩
        · rw [trimLoop]
          simp only [hb, if_false]
          rw [trimLoop]
          exact hdl
        · intro m h1 hm; omega
      · obtain ⟨k', hk1, hkb, heq, hmin, hlast⟩ :=
          ih segs.dropLast hbpos (by rw [List.length_dropLast]; omega)
        have hlen' : segs.dropLast.length - k' = segs.length - (k' + 1) := by
          rw [List.length_dropLast]; omega
        have htake : segs.dropLast.take (segs.dropLast.length - k') =
            segs.take (segs.length - (k' + 1)) := by
          rw [hlen', dropLast_take_eq segs _ (by omega)]
        refine ⟨k' + 1, by omega, by omega, ?_, ?_, ?_⟩
        · rw [trimLoop]
          simp only [hb, if_false]
          rw [heq, htake]
        · intro m h1 hm
          rcases Nat.lt_or_ge m 2 with hm2 | hm2
          · have hm1 : m = 1 := by omega
            subst hm1
            rw [← hdl]
            exact not_lt.mp hb
          · have h := hmin (m - 1) (by omega) (by omega)
            have hlen'' : segs.dropLast.length - (m - 1) =
                segs.length - m := by
              rw [List.length_dropLast]; omega
            rwa [hlen'', dropLast_take_eq segs _ (by omega)] at h
        · rcases hlast with h | h
          · left; rwa [htake] at h
          · right; omega

/-- The multi-segment trim specification holds for every result with at
least two segments. -/
theorem trimResult_trimSpec (r : RecognitionResult) (e : ℚ)
    (h2 : 2 ≤ r.segments.length) : TrimSpec r e := by
  have hne : ¬ r.segments.length ≤ 1 := by omega
  have hmax : max 1 (r.segments.length - 1) = r.segments.length - 1 := by
    omega
  obtain ⟨k, hk1, hkb, heq, hmin, hlast⟩ :=
    trimLoop_take e (r.segments.length - 1) r.segments (by omega) (by omega)
  have hTR : trimResult r e =
      ({ r with
          segments := r.segments.take (r.segments.length - k),
          text := String.join
            ((r.segments.take (r.segments.length - k)).map Segment.text) },
        min (lastStop (r.segments.take (r.segments.length - k))) e) := by
    rw [trimResult]
    simp only [hne, if_false, hmax, heq]
  refine ⟨k, hk1, hkb, by rw [hTR], hmin, ?_, ?_, ?_, ?_⟩
  · rw [hTR]; exact hlast
  · rw [hTR]
  · intro hge
    rw [hTR] at hge ⊢
    exact min_eq_right hge
  · rw [hTR]

/-- C1: boundary-trim decision of the streaming core loop.  For a
non-terminal window (`end < totalDuration`) the loop yields the trimmed
rebased result (non-terminal, prompt extended by the retained text); with
zero or one segment nothing is removed and the cursor advances exactly to
the window end; with two or more segments the bounded removal loop runs as
specified by `TrimSpec` (at least one, at most `segmentCount - 1` removals,
minimal stopping, cursor `min lastRemainingEnd e` clamped to the window end
on budget exhaustion, text recomputed by concatenation). -/
theorem C1_boundary_trim (tr : ℚ → ℚ → Option String → RecognitionResult)
    (csf : ℕ → ℚ) (dur : ℚ) (fuel : ℕ) (r : RecognitionResult)
    (start e : ℚ) (i : ℕ) (prompt : String) (hnt : ¬ dur ≤ e) :
    ((runLoop tr csf dur (fuel + 1) r start e i prompt).1.head? =
      some ⟨(trimResult (rebaseResult r start) e).1, prompt,
            prompt ++ (trimResult (rebaseResult r start) e).1.text, false⟩) ∧
    ((rebaseResult r start).segments.length ≤ 1 →
      trimResult (rebaseResult r start) e = (rebaseResult r start, e)) ∧
    (2 ≤ (rebaseResult r start).segments.length →
      TrimSpec (rebaseResult r start) e) := by
  refine ⟨?_, ?_, trimResult_trimSpec _ e⟩
  · rw [runLoop]
    simp only [hnt, if_false, List.head?]
  · intro h
    rw [trimResult]
    simp only [h, if_true]

/-- C1 witness: a concrete non-terminal window with a three-segment result;
the trim specification and the loop-head equation hold there. -/
theorem C1_boundary_trim_witness :
    ((runLoop (fun _ _ _ => ⟨"English", "", []⟩) (fun _ => 30) 100 1
        ⟨"English", "abc", [⟨0, 0, 5, "a"⟩, ⟨0, 5, 9, "b"⟩, ⟨0, 9, 12, "c"⟩]⟩
        0 10 0 "").1.head? =
      some ⟨(trimResult (rebaseResult
          ⟨"English", "abc", [⟨0, 0, 5, "a"⟩, ⟨0, 5, 9, "b"⟩,
            ⟨0, 9, 12, "c"⟩]⟩ 0) 10).1, "",
        "" ++ (trimResult (rebaseResult
          ⟨"English", "abc", [⟨0, 0, 5, "a"⟩, ⟨0, 5, 9, "b"⟩,
            ⟨0, 9, 12, "c"⟩]⟩ 0) 10).1.text, false⟩) ∧
    TrimSpec (rebaseResult
      ⟨"English", "abc", [⟨0, 0, 5, "a"⟩, ⟨0, 5, 9, "b"⟩, ⟨0, 9, 12, "c"⟩]⟩
      0) 10 := by
  have h := C1_boundary_trim (fun _ _ _ => ⟨"English", "", []⟩) (fun _ => 30)
    100 0 ⟨"English", "abc", [⟨0, 0, 5, "a"⟩, ⟨0, 5, 9, "b"⟩, ⟨0, 9, 12, "c"⟩]⟩
    0 10 0 "" (by norm_num)
  exact ⟨h.1, h.2.2 (by simp [rebaseResult])⟩

/-- A prefix of the segment list contributes a sublist of the flattened
values. -/
theorem flatMap_take_sublist {α β : Type*} (l : List α) (m : ℕ)
    (f : α → List β) : ((l.take m).flatMap f).Sublist (l.flatMap f) := by
  have h : (l.take m).flatMap f ++ (l.drop m).flatMap f = l.flatMap f := by
    rw [← List.flatMap_append, List.take_append_drop]
  rw [← h]
  exact List.sublist_append_left _ _

/-- Rebasing shifts every flattened time value by the window start. -/
theorem segTimes_shift (l : List Segment) (s : ℚ) :
    ((l.map fun sg =>
        { sg with seek := sg.seek + s, start := sg.start + s,
                  stop := sg.stop + s }).flatMap
        fun sg => [sg.start, sg.stop]) =
      (l.flatMap fun sg => [sg.start, sg.stop]).map (· + s) := by
  induction l with
  | nil => rfl
  | cons a t ih => simp [List.flatMap_cons, ih]

/-- `resultTimes` of a rebased result is the shifted original time list. -/
theorem resultTimes_rebase (r : RecognitionResult) (s : ℚ) :
    resultTimes (rebaseResult r s) = (resultTimes r).map (· + s) := by
  simpa [resultTimes, rebaseResult] using segTimes_shift r.segments s

/-- The last flattened time value of a nonempty segment list is the last
segment's end. -/
theorem segTimes_getLast (l : List Segment) (h : l ≠ []) :
    (l.flatMap fun sg => [sg.start, sg.stop]).getLast? =
      some (lastStop l) := by
  induction l with
  | nil => exact absurd rfl h
  | cons a t ih =>
    cases t with
    | nil => simp [lastStop]
    | cons b t' =>
      rw [List.flatMap_cons,
        List.getLast?_append_of_ne_nil _ (by simp [List.flatMap_cons]),
        ih (by simp)]
      simp [lastStop, List.getLast?_cons_cons]

/-- In a `≤`-chain, every element is at most the last one. -/
theorem chain'_le_getLast {l : List ℚ} (hc : List.Chain' (· ≤ ·) l)
    {x b : ℚ} (hx : x ∈ l) (hb : l.getLast? = some b) : x ≤ b := by
  induction l with
  | nil => simp at hx
  | cons a t ih =>
    cases t with
    | nil =>
      simp at hx hb
      rw [hx, ← hb]
    | cons c t' =>
      rw [List.getLast?_cons_cons] at hb
      rcases List.mem_cons.mp hx with rfl | hx'
      · have hb_mem : b ∈ c :: t' := List.mem_of_mem_getLast? hb
        have hp := List.chain'_iff_pairwise.mp hc
        exact (List.pairwise_cons.mp hp).1 b hb_mem
      · exact ih hc.tail hx' hb

/-- Invariant of the core loop: assuming every client result is valid for its
window, all emitted (rebased) time values form a `≤`-chain and are bounded
below by the cursor at loop entry. -/
theorem runLoop_mono (tr : ℚ → ℚ → Option String → RecognitionResult)
    (csf : ℕ → ℚ) (dur : ℚ) (hcs : ∀ j, 0 < csf j)
    (htr : ∀ s t p, ValidResult (tr s t p) (t - s)) :
    ∀ (fuel : ℕ) (r : RecognitionResult) (start e : ℚ) (i : ℕ)
      (prompt : String), ValidResult r (e - start) → start ≤ e →
      List.Chain' (· ≤ ·)
        (emittedTimes (runLoop tr csf dur fuel r start e i prompt).1) ∧
      ∀ t ∈ emittedTimes (runLoop tr csf dur fuel r start e i prompt).1,
        start ≤ t := by
  intro fuel
  induction fuel with
  | zero => intro r start e i prompt _ _; simp [runLoop, emittedTimes]
  | succ fuel ih =>
    intro r start e i prompt hr hse
    have hc' : List.Chain' (· ≤ ·) (resultTimes (rebaseResult r start)) := by
      rw [resultTimes_rebase]
      exact (List.chain'_map _).mpr (hr.1.imp fun a b h => by linarith)
    have hb' : ∀ t ∈ resultTimes (rebaseResult r start),
        start ≤ t ∧ t ≤ e := by
      rw [resultTimes_rebase]
      intro t ht
      obtain ⟨u, hu, rfl⟩ := List.mem_map.mp ht
      obtain ⟨h0, hd⟩ := hr.2 u hu
      constructor <;> linarith
    rw [runLoop]
    by_cases hterm : dur ≤ e
    · simp only [hterm, if_true]
      constructor
      · simpa [emittedTimes] using hc'
      · intro t ht
        simp only [emittedTimes, List.flatMap_cons, List.flatMap_nil,
          List.append_nil] at ht
        exact (hb' t ht).1
    · simp only [hterm, if_false]
      have key : ((resultTimes (trimResult (rebaseResult r start) e).1).Sublist
            (resultTimes (rebaseResult r start))) ∧
          (∀ x ∈ resultTimes (trimResult (rebaseResult r start) e).1,
            x ≤ (trimResult (rebaseResult r start) e).2) ∧
          start ≤ (trimResult (rebaseResult r start) e).2 ∧
          (trimResult (rebaseResult r start) e).2 ≤ e := by
        by_cases hlen : (rebaseResult r start).segments.length ≤ 1
        · have hTeq : trimResult (rebaseResult r start) e =
              (rebaseResult r start, e) := by
            rw [trimResult]; simp [hlen]
          rw [hTeq]
          refine ⟨List.Sublist.refl _, ?_, hse, le_refl e⟩
          intro x hx; exact (hb' x hx).2
        · have h2 : 2 ≤ (rebaseResult r start).segments.length := by omega
          obtain ⟨k, hk1, hkb, hseg, hmin, hlast, hcur, hclamp, htext⟩ :=
            trimResult_trimSpec (rebaseResult r start) e h2
          have hlentake : ((rebaseResult r start).segments.take
              ((rebaseResult r start).segments.length - k)).length =
              (rebaseResult r start).segments.length - k := by
            rw [List.length_take]; omega
          have hne : (trimResult (rebaseResult r start) e).1.segments ≠ [] := by
            rw [hseg]
            intro hnil
            rw [hnil] at hlentake
            simp at hlentake
            omega
          have hsub : (resultTimes (trimResult (rebaseResult r start) e).1).Sublist
              (resultTimes (rebaseResult r start)) := by
            rw [resultTimes, hseg, resultTimes]
            exact flatMap_take_sublist _ _ _
          have hchainT : List.Chain' (· ≤ ·)
              (resultTimes (trimResult (rebaseResult r start) e).1) :=
            hc'.sublist hsub
          have hlastT : (resultTimes (trimResult (rebaseResult r start) e).1).getLast? =
              some (lastStop (trimResult (rebaseResult r start) e).1.segments) := by
            rw [resultTimes]
            exact segTimes_getLast _ hne
          have hxle : ∀ x ∈ resultTimes (trimResult (rebaseResult r start) e).1,
              x ≤ (trimResult (rebaseResult r start) e).2 := by
            intro x hx
            have hxe : x ≤ e := (hb' x (hsub.mem hx)).2
            have hxl := chain'_le_getLast hchainT hx hlastT
            rw [hcur]
            exact le_min hxl hxe
          have hstartT : start ≤ (trimResult (rebaseResult r start) e).2 := by
            have hmem := List.mem_of_mem_getLast? hlastT
            have := (hb' _ (hsub.mem hmem)).1
            rw [hcur]
            exact le_min this hse
          exact ⟨hsub, hxle, hstartT, by rw [hcur]; exact min_le_right _ _⟩
      obtain ⟨hsub, hxle, hstartT, hT2e⟩ := key
      have hchainT : List.Chain' (· ≤ ·)
          (resultTimes (trimResult (rebaseResult r start) e).1) :=
        hc'.sublist hsub
      have he' : (trimResult (rebaseResult r start) e).2 ≤
          getEnd csf dur (trimResult (rebaseResult r start) e).2 (i + 1) := by
        simp only [getEnd]
        by_cases hcl : dur - ((trimResult (rebaseResult r start) e).2 +
            csf (i + 1)) < csf (i + 1)
        · simp only [hcl, if_true]
          have := not_le.mp hterm
          linarith
        · simp only [hcl, if_false]
          have := hcs (i + 1)
          linarith
      obtain ⟨ihc, ihb⟩ := ih
        (tr (trimResult (rebaseResult r start) e).2
          (getEnd csf dur (trimResult (rebaseResult r start) e).2 (i + 1))
          (some (prompt ++ (trimResult (rebaseResult r start) e).1.text)))
        (trimResult (rebaseResult r start) e).2
        (getEnd csf dur (trimResult (rebaseResult r start) e).2 (i + 1))
        (i + 1) (prompt ++ (trimResult (rebaseResult r start) e).1.text)
        (htr _ _ _) he'
      constructor
      · simp only [emittedTimes, List.flatMap_cons]
        refine List.chain'_append.mpr ⟨hchainT, ihc, ?_⟩
        intro x hx y hy
        have hx' : x ∈ resultTimes (trimResult (rebaseResult r start) e).1 :=
          List.mem_of_mem_getLast? hx
        have hy' := List.mem_of_mem_head? hy
        exact le_trans (hxle x hx') (ihb y hy')
      · intro x hx
        simp only [emittedTimes, List.flatMap_cons, List.mem_append] at hx
        rcases hx with hx | hx
        · exact (hb' x (hsub.mem hx)).1
        · exact le_trans hstartT (ihb x hx)

/-- C2: assuming every recognition result lists slice-relative, non-negative,
non-decreasing times bounded by its window's duration, the rebased start/end
values of all segments emitted by the stream (started at cursor 0) form a
monotonically non-decreasing sequence, across chunk boundaries and including
the final untrimmed chunk. -/
theorem C2_rebased_monotone (tr : ℚ → ℚ → Option String → RecognitionResult)
    (csf : ℕ → ℚ) (dur : ℚ) (fuel : ℕ) (r : RecognitionResult) (e : ℚ)
    (i : ℕ) (prompt : String) (hcs : ∀ j, 0 < csf j)
    (htr : ∀ s t p, ValidResult (tr s t p) (t - s))
    (hr : ValidResult r (e - 0)) (he : 0 ≤ e) :
    List.Chain' (· ≤ ·)
      (emittedTimes (runLoop tr csf dur fuel r 0 e i prompt).1) :=
  (runLoop_mono tr csf dur hcs htr fuel r 0 e i prompt hr he).1

/-- C2 witness: a concrete two-segment first result against a 30-second
window with an empty-result client; the emitted time sequence is a chain. -/
theorem C2_rebased_monotone_witness :
    ValidResult ⟨"English", "xy", [⟨0, 1, 2, "x"⟩, ⟨0, 3, 4, "y"⟩]⟩
      ((30 : ℚ) - 0) ∧
    List.Chain' (· ≤ ·) (emittedTimes
      (runLoop (fun _ _ _ => ⟨"English", "", []⟩) (fun _ => 30) 50 2
        ⟨"English", "xy", [⟨0, 1, 2, "x"⟩, ⟨0, 3, 4, "y"⟩]⟩
        0 30 0 "").1) := by
  have hv : ValidResult ⟨"English", "xy", [⟨0, 1, 2, "x"⟩, ⟨0, 3, 4, "y"⟩]⟩
      ((30 : ℚ) - 0) := by
    constructor
    · simp [resultTimes, List.flatMap_cons]
      norm_num
    · intro t ht
      simp [resultTimes, List.flatMap_cons] at ht
      rcases ht with h | h | h | h <;> rw [h] <;> norm_num
  refine ⟨hv, ?_⟩
  exact C2_rebased_monotone (fun _ _ _ => ⟨"English", "", []⟩) (fun _ => 30)
    50 2 ⟨"English", "xy", [⟨0, 1, 2, "x"⟩, ⟨0, 3, 4, "y"⟩]⟩ 30 0 ""
    (fun _ => by norm_num)
    (fun s t p => by constructor <;> simp [resultTimes])
    hv (by norm_num)

/-- C3 counterexample: with punctuation forcing enabled and the language
known up front (`fr`), a first result without uppercase or punctuation makes
the engine re-issue the first window (two transcription calls, retry prompt
primed with a trailing space) — the claim says no re-issue ever occurs in
this situation and the text is capitalized instead. -/
theorem C3_counterexample :
    runFirstChunk true (some "fr") none (fun l => l)
      (fun _ => ⟨"French", "bonjour tout le monde", []⟩) =
      .ok ⟨⟨"French", "bonjour tout le monde", []⟩, 2, some "fr ", "fr"⟩ := by
  rfl

/-- C3 amended: with punctuation forcing enabled and no caller prompt,
whenever language resolution succeeds the engine re-issues the same first
window exactly once — with the continuation prompt set to the resolved
language's priming phrase plus a trailing space — if and only if the first
result's text has no uppercase letter and no mark from `!(),.:;?`,
regardless of whether the language was known up front; otherwise it
capitalizes the first character of the result's text and of its first
segment's text. -/
theorem C3_amended_punctuation_retry (givenLang : Option String)
    (pp : String → String) (tr : Option String → RecognitionResult)
    (lang : String)
    (hl : resolveLang givenLang (tr (givenLang.map pp)).language = .ok lang) :
    runFirstChunk true givenLang none pp tr =
      (if is_punctuation_present (tr (givenLang.map pp)).text then
        .ok ⟨capitalizeResult (tr (givenLang.map pp)), 1, givenLang.map pp,
          lang⟩
      else
        .ok ⟨tr (some (pp lang ++ " ")), 2, some (pp lang ++ " "), lang⟩) := by
  cases givenLang with
  | some l =>
    have hll : l = lang := by simpa [resolveLang] using hl
    subst hll
    simp only [Option.map_some']
    cases hp : is_punctuation_present (tr (some (pp l))).text with
    | true => simp [runFirstChunk, resolveLang, hp]
    | false => simp [runFirstChunk, resolveLang, hp]
  | none =>
    have hl' : get_lang_from_name (tr none).language = .ok lang := hl
    simp only [Option.map_none']
    cases hp : is_punctuation_present (tr none).text with
    | true => simp [runFirstChunk, resolveLang, hl', hp]
    | false => simp [runFirstChunk, resolveLang, hl', hp]

/-- C3 amended witness: a punctuated first result with a pinned language is
kept (one call) and capitalized. -/
theorem C3_amended_witness :
    runFirstChunk true (some "fr") none (fun l => l)
      (fun _ => ⟨"French", "Bonjour!", []⟩) =
      .ok ⟨capitalizeResult ⟨"French", "Bonjour!", []⟩, 1, some "fr",
        "fr"⟩ := by
  have h := C3_amended_punctuation_retry (some "fr") (fun l => l)
    (fun _ => ⟨"French", "Bonjour!", []⟩) "fr" (by rfl)
  rw [h]
  have hp : is_punctuation_present
      (⟨"French", "Bonjour!", []⟩ : RecognitionResult).text = true := by
    decide
  simp [hp]

/-- The first entry of a loop trace carries the prompt at loop entry. -/
theorem runLoop_getElem_zero_promptBefore
    (tr : ℚ → ℚ → Option String → RecognitionResult) (csf : ℕ → ℚ)
    (dur : ℚ) (fuel : ℕ) (r : RecognitionResult) (start e : ℚ) (i : ℕ)
    (prompt : String) :
    ∀ z, (runLoop tr csf dur fuel r start e i prompt).1[0]? = some z →
      z.promptBefore = prompt := by
  cases fuel with
  | zero => intro z hz; simp [runLoop] at hz
  | succ fuel =>
    intro z hz
    rw [runLoop] at hz
    by_cases h : dur ≤ e
    · simp only [h, if_true] at hz
      simp at hz
      rw [← hz]
    · simp only [h, if_false] at hz
      simp at hz
      rw [← hz]

/-- C5: continuation-prompt evolution.  Every non-terminal yield's prompt
after the iteration is the prompt before it with the retained (post-trim)
text appended; consecutive yields chain their prompts (never reset or
truncated by the engine); and the default transport truncates the prompt it
sends to its last 1000 characters. -/
theorem C5_prompt_growth (tr : ℚ → ℚ → Option String → RecognitionResult)
    (csf : ℕ → ℚ) (dur : ℚ) (fuel : ℕ) (r : RecognitionResult)
    (start e : ℚ) (i : ℕ) (prompt : String) :
    (∀ (k : ℕ) (y : LoopYield),
      (runLoop tr csf dur fuel r start e i prompt).1[k]? = some y →
      y.terminal = false →
      y.promptAfter = y.promptBefore ++ y.result.text) ∧
    (∀ (k : ℕ) (y z : LoopYield),
      (runLoop tr csf dur fuel r start e i prompt).1[k]? = some y →
      (runLoop tr csf dur fuel r start e i prompt).1[k + 1]? = some z →
      z.promptBefore = y.promptAfter) ∧
    (∀ p, defaultTransportPrompt p = p.takeRight 1000) := by
  induction fuel generalizing r start e i prompt with
  | zero =>
    refine ⟨?_, ?_, fun p => rfl⟩
    · intro k y hy; simp [runLoop] at hy
    · intro k y z hy hz; simp [runLoop] at hy
  | succ fuel ih =>
    refine ⟨?_, ?_, fun p => rfl⟩
    · intro k y hy hterm
      rw [runLoop] at hy
      by_cases h : dur ≤ e
      · simp only [h, if_true] at hy
        cases k with
        | zero =>
          simp at hy
          rw [← hy] at hterm
          simp at hterm
        | succ k => simp at hy
      · simp only [h, if_false] at hy
        cases k with
        | zero =>
          simp at hy
          rw [← hy]
        | succ k =>
          simp only [List.getElem?_cons_succ] at hy
          exact (ih _ _ _ _ _).1 k y hy hterm
    · intro k y z hy hz
      rw [runLoop] at hy hz
      by_cases h : dur ≤ e
      · simp only [h, if_true] at hy hz
        cases k with
        | zero => simp at hz
        | succ k => simp at hy
      · simp only [h, if_false] at hy hz
        cases k with
        | zero =>
          simp at hy
          simp only [List.getElem?_cons_succ] at hz
          have := runLoop_getElem_zero_promptBefore tr csf dur fuel _ _ _ _ _
            z hz
          rw [this, ← hy]
        | succ k =>
          simp only [List.getElem?_cons_succ] at hy hz
          exact (ih _ _ _ _ _).2.1 k y z hy hz

/-- C5 witness: a one-iteration concrete trace; the yielded prompt grows by
the retained text and the transport truncation is the last 1000
characters. -/
theorem C5_prompt_growth_witness :
    ((runLoop (fun _ _ _ => ⟨"English", "next", []⟩) (fun _ => 30) 100 1
        ⟨"English", "hello", []⟩ 0 30 0 "").1[0]? =
      some ⟨⟨"English", "hello", []⟩, "", "hello", false⟩) ∧
    (⟨⟨"English", "hello", []⟩, "", "hello", false⟩ : LoopYield).promptAfter =
      (⟨⟨"English", "hello", []⟩, "", "hello",
        false⟩ : LoopYield).promptBefore ++
      (⟨⟨"English", "hello", []⟩, "", "hello",
        false⟩ : LoopYield).result.text ∧
    defaultTransportPrompt "abc" = "abc".takeRight 1000 := by
  have h := C5_prompt_growth (fun _ _ _ => ⟨"English", "next", []⟩)
    (fun _ => 30) 100 1 ⟨"English", "hello", []⟩ 0 30 0 ""
  have h0 : (runLoop (fun _ _ _ => ⟨"English", "next", []⟩) (fun _ => 30) 100
      1 ⟨"English", "hello", []⟩ 0 30 0 "").1[0]? =
      some ⟨⟨"English", "hello", []⟩, "", "hello", false⟩ := by
    rw [runLoop]
    norm_num [trimResult, rebaseResult]
  exact ⟨h0, h.1 0 _ h0 rfl, h.2.2 "abc"⟩

/-- C4: end-clamp of the window computation.  When the chunk size is positive
the computed end is `start + chunkSize i`, except that it equals the total
duration exactly when the remaining audio past the nominal end is shorter
than the chunk size. -/
theorem C4_end_clamp (csf : ℕ → ℚ) (dur start : ℚ) (i : ℕ)
    (hcs : 0 < csf i) :
    (dur - (start + csf i) < csf i → getEnd csf dur start i = dur) ∧
    (¬ dur - (start + csf i) < csf i →
      getEnd csf dur start i = start + csf i) ∧
    (getEnd csf dur start i = dur ↔ dur - (start + csf i) < csf i) := by
  refine ⟨fun h => by simp [getEnd, h], fun h => by simp [getEnd, h], ?_⟩
  constructor
  · intro h
    by_contra hne
    rw [getEnd] at h
    simp only [hne, if_false] at h
    rw [h] at hne
    simp at hne
    linarith
  · intro h
    simp [getEnd, h]

/-- C4 witness: with duration 65, cursor 30, chunk size 60 the clamp fires
and the window end is 65. -/
theorem C4_end_clamp_witness :
    (0 : ℚ) < 60 ∧ getEnd (fun _ => 60) 65 30 1 = 65 := by
  refine ⟨by norm_num, ?_⟩
  have h := (C4_end_clamp (fun _ => 60) 65 30 1 (by norm_num)).1
  exact h (by norm_num)

/-- C6: configuration validation precedes all I/O.  A caller language
outside the supported set fails with `UnsupportedLanguage`, and
force-punctuation together with an explicit prompt fails with
`InvalidConfiguration`; in both cases the event list is empty — no duration
probe, no media slice and no network call happened — and nothing else is
produced. -/
theorem C6_validation_before_io (language : Option String) (force : Bool)
    (callerPrompt : Option String) (csf : ℕ → ℚ) (dur : ℚ)
    (pp : String → String) (tr : ℚ → ℚ → Option String → RecognitionResult)
    (fuel : ℕ) :
    ((∃ l, language = some l ∧ l ∉ SUPPORTED_LANGUAGES) →
      atranscribe_streaming_model language force callerPrompt csf dur pp tr
        fuel = ([], .error .unsupportedLanguage)) ∧
    ((∀ l, language = some l → l ∈ SUPPORTED_LANGUAGES) → force = true →
      callerPrompt.isSome = true →
      atranscribe_streaming_model language force callerPrompt csf dur pp tr
        fuel = ([], .error .invalidConfiguration)) := by
  constructor
  · rintro ⟨l, rfl, hl⟩
    have hc : SUPPORTED_LANGUAGES.contains l = false := by simpa using hl
    simp only [atranscribe_streaming_model, hc, Bool.not_false, if_true]
  · intro hlang hforce hprompt
    cases language with
    | none =>
      simp only [atranscribe_streaming_model, Bool.false_eq_true, if_false,
        hforce, hprompt, Bool.and_self, if_true]
    | some l =>
      have hc : SUPPORTED_LANGUAGES.contains l = true := by
        simpa using hlang l rfl
      simp only [atranscribe_streaming_model, hc, Bool.not_true,
        Bool.false_eq_true, if_false, hforce, hprompt, Bool.and_self,
        if_true]

/-- C6 witness: language `xx` is rejected as unsupported, and forcing
punctuation with an explicit prompt is rejected, both with an empty event
list. -/
theorem C6_validation_before_io_witness :
    (atranscribe_streaming_model (some "xx") false none (fun _ => 30) 100
      (fun l => l) (fun _ _ _ => ⟨"English", "", []⟩) 1 =
      ([], .error .unsupportedLanguage)) ∧
    (atranscribe_streaming_model none true (some "my prompt") (fun _ => 30)
      100 (fun l => l) (fun _ _ _ => ⟨"English", "", []⟩) 1 =
      ([], .error .invalidConfiguration)) := by
  constructor
  · exact (C6_validation_before_io (some "xx") false none (fun _ => 30) 100
      (fun l => l) (fun _ _ _ => ⟨"English", "", []⟩) 1).1
      ⟨"xx", rfl, by decide⟩
  · exact (C6_validation_before_io none true (some "my prompt")
      (fun _ => 30) 100 (fun l => l) (fun _ _ _ => ⟨"English", "", []⟩) 1).2
      (fun l hl => by cases hl) rfl rfl

/-- C7 counterexample: when the first pulled element has no segments, the
very first segment actually emitted to the caller (from a later element)
keeps its leading whitespace — the facade only strips the first segment of
the first pulled element. -/
theorem C7_counterexample :
    atranscribe_streaming_simple_model
      [⟨"English", "", []⟩, ⟨"English", " x", [⟨0, 0, 1, " x"⟩]⟩] =
      some (.ok ("en", [⟨0, 0, 1, " x"⟩])) ∧
    (⟨0, 0, 1, " x"⟩ : Segment).text ≠
      pyLstrip (⟨0, 0, 1, " x"⟩ : Segment).text := by
  exact ⟨rfl, by decide⟩

/-- C7 amended: facade behavior.  The facade pulls exactly one element from
the core generator before returning (the returned language is computed from
that first element alone, independent of the rest of the stream); it strips
leading whitespace from the text of the first segment of that first pulled
element when it has one (later segments pass through unchanged, even when
the first element was empty); the output is the in-order concatenation of
all yielded segments; and an empty core stream yields nothing. -/
theorem C7_facade (r : RecognitionResult) (rest : List RecognitionResult) :
    (∀ rest' : List RecognitionResult,
      (atranscribe_streaming_simple_model (r :: rest)).map
        (Except.map Prod.fst) =
      (atranscribe_streaming_simple_model (r :: rest')).map
        (Except.map Prod.fst)) ∧
    (∀ lang segs,
      atranscribe_streaming_simple_model (r :: rest) =
        some (.ok (lang, segs)) →
      get_lang_from_name r.language = .ok lang ∧
      segs = (match r.segments with
              | [] => []
              | s :: ss => { s with text := pyLstrip s.text } :: ss) ++
             rest.flatMap RecognitionResult.segments) ∧
    atranscribe_streaming_simple_model [] = none := by
  refine ⟨?_, ?_, rfl⟩
  · intro rest'
    simp only [atranscribe_streaming_simple_model]
    cases get_lang_from_name r.language <;> simp [Except.map]
  · intro lang segs h
    simp only [atranscribe_streaming_simple_model] at h
    cases hg : get_lang_from_name r.language with
    | error err => rw [hg] at h; simp at h
    | ok l =>
      rw [hg] at h
      simp at h
      exact ⟨by rw [h.1], h.2.symm⟩

/-- C7 witness: a two-result stream; the first segment's leading space is
stripped, the language is resolved from the first result, and all segments
come out in order. -/
theorem C7_facade_witness :
    atranscribe_streaming_simple_model
      [⟨"English", " hi", [⟨0, 0, 1, " hi"⟩]⟩,
       ⟨"English", "x", [⟨0, 1, 2, "x"⟩]⟩] =
      some (.ok ("en", [⟨0, 0, 1, "hi"⟩, ⟨0, 1, 2, "x"⟩])) ∧
    get_lang_from_name "English" = .ok "en" := by
  constructor
  · rfl
  · exact (C7_facade ⟨"English", " hi", [⟨0, 0, 1, " hi"⟩]⟩
      [⟨"English", "x", [⟨0, 1, 2, "x"⟩]⟩]).2.1 "en"
      [⟨0, 0, 1, "hi"⟩, ⟨0, 1, 2, "x"⟩] (by rfl) |>.1

/-- C8 counterexample: for a file whose probe metadata lists only a video
stream (no audio track), `get_audio_duration` does not fail with
`NoAudioStreams`: the bare `except Exception` fallback swallows the
`NoAudioStreamsError` of the ffprobe path and the decode fallback (here with
no parseable `time=` output) raises a generic `RuntimeError` instead. -/
theorem C8_counterexample :
    get_audio_duration (.ok ⟨[⟨"video", some 10⟩], some 10⟩) [] =
      .error .runtimeError ∧
    DurationError.runtimeError ≠ DurationError.noAudioStreams := by
  exact ⟨rfl, by decide⟩

/-- C8 amended: for probe metadata with no audio stream, the ffprobe-based
prober alone fails with `NoAudioStreams`, but the composite
`get_audio_duration` catches that failure and returns whatever the
decode-based fallback produces; when the fallback finds no `time=` matches
the surfaced failure is a generic `RuntimeError`. -/
theorem C8_no_audio_fallback (md : ProbeMetadata)
    (timeMatches : List (ℕ × ℕ × ℚ))
    (hnoaudio : ∀ s ∈ md.streams, s.codec_type ≠ "audio") :
    get_audio_duration_ffprobe (.ok md) = .error .noAudioStreams ∧
    get_audio_duration (.ok md) timeMatches =
      get_audio_duration_decode timeMatches ∧
    (timeMatches = [] →
      get_audio_duration (.ok md) timeMatches = .error .runtimeError) := by
  have hfilter : md.streams.filter (fun s => s.codec_type == "audio") = [] := by
    rw [List.filter_eq_nil_iff]
    intro s hs
    simpa using hnoaudio s hs
  have h1 : get_audio_duration_ffprobe (.ok md) = .error .noAudioStreams := by
    simp [get_audio_duration_ffprobe, hfilter]
  refine ⟨h1, ?_, ?_⟩
  · simp [get_audio_duration, h1]
  · intro h
    subst h
    simp [get_audio_duration, h1, get_audio_duration_decode]

/-- C8 amended witness: a concrete video-only metadata with a nonempty
decode parse; the composite prober returns the decode estimate. -/
theorem C8_no_audio_fallback_witness :
    get_audio_duration_ffprobe (.ok ⟨[⟨"video", some 9⟩], some 9⟩) =
      .error .noAudioStreams ∧
    get_audio_duration (.ok ⟨[⟨"video", some 9⟩], some 9⟩) [(0, 1, 5)] =
      get_audio_duration_decode [(0, 1, 5)] := by
  have h := C8_no_audio_fallback ⟨[⟨"video", some 9⟩], some 9⟩ [(0, 1, 5)]
    (by decide)
  exact ⟨h.1, h.2.1⟩

/-- The strategy loop over failures only: the accumulated best partial is
returned when nonempty, else the final hard failure. -/
theorem trimAttempts_all_failures :
    ∀ (runs : List FfmpegRun) (best : List ℕ),
    (∀ x ∈ runs, x.isFailure = true) →
    trimAttempts runs best =
      (if 0 < (bestPartial runs best).length then
        .ok (bestPartial runs best)
      else .error .runtimeError) := by
  intro runs
  induction runs with
  | nil => intro best _; rfl
  | cons hd tl ih =>
    intro best hall
    cases hd with
    | success o ne =>
      exact absurd (hall _ (List.mem_cons_self _ _))
        (by simp [FfmpegRun.isFailure])
    | failure o =>
      have hstep : trimAttempts (FfmpegRun.failure o :: tl) best =
          trimAttempts tl (if best.length < o.length then o else best) := rfl
      rw [hstep, ih _ (fun x hx => hall x (List.mem_cons_of_mem _ hx))]
      rfl

/-- C9 counterexample: a zero-duration window (`end = start`) is rejected by
the `assert duration > 0` and the function throws an `AssertionError`
instead of returning the strategy's successful encode. -/
theorem C9_counterexample :
    trim_audio_and_convert 0 (some 0) [FfmpegRun.success [7] false] =
      .error .assertionError ∧
    trim_audio_and_convert 0 (some 0) [FfmpegRun.success [7] false] ≠
      .ok [7] := by
  have h : trim_audio_and_convert 0 (some 0) [FfmpegRun.success [7] false] =
      .error .assertionError := by
    norm_num [trim_audio_and_convert]
  exact ⟨h, by rw [h]; simp⟩

/-- The strategy loop returns the first success: any run of failures before
the first successful strategy only updates the best-partial accumulator, and
the first success's bytes are returned (or `AudioTrimError` when ffmpeg
reported that nothing was encoded). -/
theorem trimAttempts_first_success :
    ∀ (pre : List FfmpegRun) (o : List ℕ) (nothingEncoded : Bool)
      (rest : List FfmpegRun) (best : List ℕ),
    (∀ x ∈ pre, x.isFailure = true) →
    trimAttempts (pre ++ FfmpegRun.success o nothingEncoded :: rest) best =
      (if nothingEncoded then .error .audioTrimError else .ok o) := by
  intro pre
  induction pre with
  | nil => intro o ne rest best _; rfl
  | cons hd tl ih =>
    intro o ne rest best hall
    cases hd with
    | success o' ne' =>
      exact absurd (hall _ (List.mem_cons_self _ _))
        (by simp [FfmpegRun.isFailure])
    | failure o' =>
      have hstep : trimAttempts
          ((FfmpegRun.failure o' :: tl) ++ FfmpegRun.success o ne :: rest)
          best =
          trimAttempts (tl ++ FfmpegRun.success o ne :: rest)
            (if best.length < o'.length then o' else best) := rfl
      rw [hstep]
      exact ih o ne rest _ (fun x hx => hall x (List.mem_cons_of_mem _ hx))

/-- C9 amended: degenerate windows — a negative start or a non-positive
duration (including the zero-duration case `end = start`) — are rejected by
the assertions with an `AssertionError`, for every strategy outcome; for
windows with `start ≥ 0` and positive duration the assertions pass and the
strategy loop runs: after any run of failing strategies, the first
successful strategy's bytes are returned (unless ffmpeg reported
nothing-encoded, which aborts with `AudioTrimError`), and when every
strategy fails the longest partial output is returned if nonempty, with a
hard failure only when every strategy yielded zero bytes. -/
theorem C9_trim_window_behavior (start e : ℚ) (runs : List FfmpegRun) :
    ((¬ 0 ≤ start ∨ e - start ≤ 0) →
      trim_audio_and_convert start (some e) runs =
        .error .assertionError) ∧
    (0 ≤ start → 0 < e - start →
      trim_audio_and_convert start (some e) runs = trimAttempts runs [] ∧
      (∀ pre o nothingEncoded rest,
        runs = pre ++ FfmpegRun.success o nothingEncoded :: rest →
        (∀ x ∈ pre, x.isFailure = true) →
        trim_audio_and_convert start (some e) runs =
          (if nothingEncoded then .error .audioTrimError else .ok o)) ∧
      ((∀ x ∈ runs, x.isFailure = true) →
        trim_audio_and_convert start (some e) runs =
          (if 0 < (bestPartial runs []).length then .ok (bestPartial runs [])
          else .error .runtimeError))) := by
  constructor
  · rintro (h | h)
    · simp [trim_audio_and_convert, h]
    · by_cases h0 : 0 ≤ start
      · have hnd : ¬ 0 < e - start := not_lt.mpr h
        simp [trim_audio_and_convert, h0, hnd]
      · simp [trim_audio_and_convert, h0]
  · intro h0 hd
    have hmain : trim_audio_and_convert start (some e) runs =
        trimAttempts runs [] := by
      simp [trim_audio_and_convert, h0, hd]
    refine ⟨hmain, ?_, ?_⟩
    · rintro pre o ne rest rfl hpre
      rw [hmain, trimAttempts_first_success pre o ne rest [] hpre]
    · intro hall
      rw [hmain, trimAttempts_all_failures runs [] hall]

/-- C9 amended witness: a zero-duration window at a nonzero cursor is
rejected by the assertion; a positive window whose first strategy fails and
whose second succeeds returns the second strategy's bytes; a positive window
whose two strategies both fail returns the longest partial output. -/
theorem C9_trim_window_behavior_witness :
    trim_audio_and_convert 2 (some 2) [FfmpegRun.success [7] false] =
      .error .assertionError ∧
    trim_audio_and_convert 0 (some 10)
      [FfmpegRun.failure [5], FfmpegRun.success [7, 8] false] =
      .ok [7, 8] ∧
    trim_audio_and_convert 0 (some 10)
      [FfmpegRun.failure [5], FfmpegRun.failure [5, 6]] = .ok [5, 6] := by
  refine ⟨?_, ?_, ?_⟩
  · exact (C9_trim_window_behavior 2 2 [FfmpegRun.success [7] false]).1
      (Or.inr (by norm_num))
  · have h := ((C9_trim_window_behavior 0 10
      [FfmpegRun.failure [5], FfmpegRun.success [7, 8] false]).2
      (by norm_num) (by norm_num)).2.1
      [FfmpegRun.failure [5]] [7, 8] false [] rfl (by decide)
    rw [h]
    rfl
  · have h := ((C9_trim_window_behavior 0 10
      [FfmpegRun.failure [5], FfmpegRun.failure [5, 6]]).2
      (by norm_num) (by norm_num)).2.2 (by decide)
    rw [h]
    norm_num [bestPartial]

/-- C10: every language the facade can return is a member of the supported
language table: `get_lang_from_name` rejects empty names, capitalizes the
reported name before the table lookup, errors on a missing entry, and on
success returns a code from the table — hence a successful facade call never
yields an out-of-table language. -/
theorem C10_language_in_table :
    (∀ name lang, get_lang_from_name name = .ok lang →
      lang ∈ SUPPORTED_LANGUAGES) ∧
    (get_lang_from_name "" = .error .unsupportedLanguage) ∧
    (∀ name, name ≠ "" →
      get_lang_from_name name =
        (match NAME_TO_LANG (pyCapitalize name) with
        | some lang => Except.ok lang
        | none => Except.error WhisperError.unsupportedLanguage)) ∧
    (∀ results lang segs,
      atranscribe_streaming_simple_model results = some (.ok (lang, segs)) →
      lang ∈ SUPPORTED_LANGUAGES) := by
  have hmain : ∀ name lang, get_lang_from_name name = .ok lang →
      lang ∈ SUPPORTED_LANGUAGES := by
    intro name lang h
    rw [get_lang_from_name] at h
    by_cases hn : name = ""
    · simp [hn] at h
    · simp only [hn, if_false] at h
      cases hfind : NAME_TO_LANG (pyCapitalize name) with
      | none => rw [hfind] at h; simp at h
      | some l =>
        rw [hfind] at h
        simp at h
        rw [NAME_TO_LANG] at hfind
        obtain ⟨p, hp, hfst⟩ := Option.map_eq_some'.mp hfind
        have hmem := List.mem_of_find?_eq_some hp
        rw [← h, ← hfst, SUPPORTED_LANGUAGES]
        exact List.mem_map_of_mem Prod.fst hmem
  refine ⟨hmain, by rfl, ?_, ?_⟩
  · intro name hn
    simp [get_lang_from_name, hn]
  · intro results lang segs h
    cases results with
    | nil => simp [atranscribe_streaming_simple_model] at h
    | cons r rest =>
      simp only [atranscribe_streaming_simple_model] at h
      cases hg : get_lang_from_name r.language with
      | error err => rw [hg] at h; simp at h
      | ok l =>
        rw [hg] at h
        simp at h
        rw [← h.1]
        exact hmain _ _ hg

/-- C10 witness: the lowercase reported name `english` resolves to `en`,
which is in the table; a facade call on a French first result returns `fr`,
in the table. -/
theorem C10_language_in_table_witness :
    get_lang_from_name "english" = .ok "en" ∧ "en" ∈ SUPPORTED_LANGUAGES ∧
    atranscribe_streaming_simple_model [⟨"French", "", []⟩] =
      some (.ok ("fr", [])) ∧ "fr" ∈ SUPPORTED_LANGUAGES := by
  have h1 : get_lang_from_name "english" = .ok "en" := by rfl
  have h2 : atranscribe_streaming_simple_model [⟨"French", "", []⟩] =
      some (.ok ("fr", [])) := by rfl
  exact ⟨h1, C10_language_in_table.1 "english" "en" h1, h2,
    C10_language_in_table.2.2.2 [⟨"French", "", []⟩] "fr" [] h2⟩

end WhisperStream
